import Mathlib

/-!
Verification of the SAMD_SafeFlashStorage library (src/SAMD_SafeFlashStorage.h,
src/SAMD_SafeFlashStorage.cpp) against its natural-language specification.

The development is a shallow embedding of the two layers of the library:

* `FlashClass` mirrors the raw flash driver: a region descriptor holding the
  hardware-derived `PAGE_SIZE` and `ROW_SIZE` together with the declared
  `flash_address` / `flash_size` bounds, and the bounds-checked `read`,
  `write` and `erase` operations of SAMD_SafeFlashStorage.cpp.
  Flash memory is modelled as a byte-addressed store `Nat → Nat` (each cell
  holding a byte value); machine pointers are 32-bit, so address arithmetic
  is over `Nat` with explicit comparisons against `UINTPTR_MAX` and an
  explicit wrap modulus `ADDR_MOD = 2 ^ 32` exactly where the C code performs
  `uintptr_t` arithmetic.  The state additionally carries a ghost trace
  `erases` recording, in order, the target address of every single-row erase
  command issued to the hardware (the body of `FlashClass::erase(ptr)`),
  so that erase-counting properties of the spec can be stated.

* `FlashStorageClass` mirrors the typed storage layer of the header: the
  on-media record `id_hash ++ payload ++ checksum` (16-bit fields stored
  little-endian, as on the ARM targets), the `calcChecksum` algorithm, the
  compile-time name hash `hash_variable`, and the `write` / `read`
  operations including the wear-avoidance comparison with the currently
  stored record.

Hardware busy-wait loops, memory barriers and cache invalidation have no
observable effect in this memory model and are not represented.
-/

namespace SafeFlash

/-- The address space of the SAMD targets is 32 bits wide; `uintptr_t`
arithmetic is arithmetic modulo `ADDR_MOD`. -/
def ADDR_MOD : Nat := 4294967296

/-- `UINTPTR_MAX` of the 32-bit target, as used by the overflow guard in
`FlashClass::isWithinBounds`. -/
def UINTPTR_MAX : Nat := ADDR_MOD - 1

/-- Mirror of the `FlashClass` object of SAMD_SafeFlashStorage.h: the
hardware-derived page and row geometry and the declared region bounds.
`flash_address = 0` models a `NULL` base pointer. -/
structure FlashClass where
  PAGE_SIZE : Nat
  ROW_SIZE : Nat
  flash_address : Nat
  flash_size : Nat

/-- The state of the flash hardware: the byte-addressed memory contents,
plus a ghost trace of the addresses of all single-row erase commands issued
so far (in issue order).  A cell of `mem` holds the value of one byte. -/
structure FlashMem where
  mem : Nat → Nat
  erases : List Nat

/-- Mirror of `FlashClass::isWithinBounds` (SAMD_SafeFlashStorage.cpp lines
51-71).  Bounds are bypassed when the declared size is zero or the base
pointer is `NULL`; otherwise the overflow of `op_start + size` is ruled out
before the sum is formed, and the operation must lie inside
`[bound_start, bound_end]`.  `bound_end` is computed with `uintptr_t`
wrap-around, hence the explicit modulus. -/
def FlashClass.isWithinBounds (fc : FlashClass) (ptr size : Nat) : Bool :=
  if fc.flash_size = 0 || fc.flash_address = 0 then
    true
  else if ptr > UINTPTR_MAX - size then
    false
  else
    let op_end := ptr + size
    let bound_start := fc.flash_address
    let bound_end := (bound_start + fc.flash_size) % ADDR_MOD
    decide (bound_start ≤ ptr) && decide (op_end ≤ bound_end)

/-- Mirror of `FlashClass::read` (cpp lines 220-240): after the bounds
check, `memcpy` the requested `size` bytes out of flash.  The memory
barriers around the copy have no observable effect in this model. -/
def FlashClass.read (fc : FlashClass) (ptr size : Nat) (st : FlashMem) :
    Option (List Nat) :=
  if fc.isWithinBounds ptr size then
    some ((List.range size).map fun i => st.mem (ptr + i))
  else
    none

/-- The number of 32-bit words the driver writes for a request of `size`
bytes: `FlashClass::write` rounds the byte count up with
`size = (size + 3) / 4` and then copies whole words. -/
def numWords (size : Nat) : Nat := (size + 3) / 4

/-- Mirror of `FlashClass::write` (cpp lines 88-154): after the bounds
check the driver fills page buffers word by word and commits them.  The
observable effect on memory is that the `numWords size` 32-bit words
starting at `ptr` take their values from the source buffer `src`
(indexed relative to the start of the buffer, bytes past `size` included,
exactly as `read_unaligned_uint32` walks past the end of a short buffer).
The page-buffer command sequencing, cache handling and barriers have no
further observable effect. -/
def FlashClass.write (fc : FlashClass) (ptr : Nat) (src : Nat → Nat)
    (size : Nat) (st : FlashMem) : Option FlashMem :=
  if fc.isWithinBounds ptr size then
    some { st with
      mem := fun a =>
        if ptr ≤ a ∧ a < ptr + 4 * numWords size then src (a - ptr)
        else st.mem a }
  else
    none

/-- Mirror of the private single-row `FlashClass::erase(ptr)` (cpp lines
178-218): the target must be row-aligned and below the physically
implemented flash size `phys` (read from the hardware parameter register,
independent of the region bounds); on success the row command sets the row
to the erased state `0xFF` and is recorded in the ghost erase trace. -/
def FlashClass.eraseRow (fc : FlashClass) (phys ptr : Nat) (st : FlashMem) :
    Bool × FlashMem :=
  if ptr % fc.ROW_SIZE = 0 ∧ ptr < phys then
    (true,
      { mem := fun a =>
          if ptr ≤ a ∧ a < ptr + fc.ROW_SIZE then 255 else st.mem a,
        erases := st.erases ++ [ptr] })
  else
    (false, st)

/-- The row loop of `FlashClass::erase(ptr, size)` (cpp lines 163-175):
while more than one row of data remains, erase a row and advance; then
erase the trailing partial-or-full row if any bytes remain.  The loop is
driven by explicit fuel (one unit per iteration); `size` decreases by
`ROW_SIZE` every iteration, so fuel `size + 1` is sufficient whenever
`ROW_SIZE > 0`.  (`ROW_SIZE = 0` would make the C loop spin forever; the
model returns failure when the fuel runs out.) -/
def FlashClass.eraseLoop (fc : FlashClass) (phys : Nat) :
    Nat → Nat → Nat → FlashMem → Bool × FlashMem
  | 0, _, _, st => (false, st)
  | fuel + 1, ptr, size, st =>
    if fc.ROW_SIZE < size then
      if (fc.eraseRow phys ptr st).1 then
        fc.eraseLoop phys fuel (ptr + fc.ROW_SIZE) (size - fc.ROW_SIZE)
          (fc.eraseRow phys ptr st).2
      else
        (false, (fc.eraseRow phys ptr st).2)
    else if 0 < size then
      fc.eraseRow phys ptr st
    else
      (true, st)

/-- Mirror of the public `FlashClass::erase(ptr, size)` (cpp lines
156-176): bounds check, then the row-decomposition loop. -/
def FlashClass.eraseRange (fc : FlashClass) (phys ptr size : Nat)
    (st : FlashMem) : Bool × FlashMem :=
  if fc.isWithinBounds ptr size then
    fc.eraseLoop phys (size + 1) ptr size st
  else
    (false, st)

/-- Reading a byte buffer held as a list, as the driver reads the caller's
source buffer: byte `i` of the buffer (bytes past the end of the list model
the unspecified adjacent memory the C code may read past a short buffer). -/
def bytesAt (l : List Nat) : Nat → Nat := fun i => l.getD i 0

/-! The typed storage layer (`FlashStorageClass<T>`) -/

/-- One step of `FlashStorageClass::calcChecksum` (header lines 113-120):
`sum += ptr[i]` in `uint16_t` arithmetic, then `sum ^= (sum >> 8)`. -/
def checksumStep (sum b : Nat) : Nat :=
  let s := (sum + b) % 65536
  s ^^^ (s >>> 8)

/-- Mirror of `FlashStorageClass::calcChecksum`: fold `checksumStep` over
the payload bytes starting from the non-zero seed `0xA5A5`. -/
def calcChecksum (l : List Nat) : Nat := l.foldl checksumStep 42405

/-- Mirror of `FlashStorageInternal::hash_combine` (header lines 38-40).
The C expression promotes the `uint16_t` operands to `int`, computes
`value + 0x9e37 + (hash << 6) + (hash >> 2)` exactly, XORs with `hash` and
truncates the result back to 16 bits on return. -/
def hash_combine (hash value : Nat) : Nat :=
  (hash ^^^ (value + 40503 + hash * 64 + hash / 4)) % 65536

/-- Mirror of `FlashStorageInternal::hash_string` (header lines 42-45):
fold `hash_combine` over the character codes of the name, seed `0x5A5A`.
The name is modelled as its list of character codes (the `char` type of the
ARM targets is unsigned, so a code is the byte value). -/
def hash_string (name : List Nat) (hash : Nat) : Nat :=
  match name with
  | [] => hash
  | c :: rest => hash_string rest (hash_combine hash c)

/-- Mirror of `FlashStorageInternal::hash_variable` (header lines 47-49):
combine the string hash of the name with `(uint16_t)size`. -/
def hash_variable (name : List Nat) (size : Nat) : Nat :=
  hash_combine (hash_string name 23130) (size % 65536)

/-- The two bytes of a `uint16_t` as stored in memory on the
little-endian ARM targets. -/
def le16 (n : Nat) : List Nat := [n % 256, n / 256 % 256]

/-- Mirror of a `FlashStorageClass<T>` object: the backing `FlashClass`
region, the identity tag fixed at construction, and the byte size of the
stored value type `T`.  A value of type `T` is modelled by its byte image,
a list of `sizeofT` bytes.  The on-media `StorageFormat` record is the
byte sequence `le16 id_hash ++ payload ++ le16 checksum` (the layout the
spec declares; the constructor sizes the region to exactly this record). -/
structure FlashStorageClass where
  flash : FlashClass
  variable_hash : Nat
  sizeofT : Nat

/-- The byte image of the candidate `StorageFormat` record built by
`FlashStorageClass::write` for the payload `v`: identity tag, payload,
then the checksum over the payload. -/
def FlashStorageClass.pkgOf (s : FlashStorageClass) (v : List Nat) :
    List Nat :=
  le16 s.variable_hash ++ v ++ le16 (calcChecksum v)

/-- The tail `flash.erase() && flash.write(&pkg)` of
`FlashStorageClass::write`: erase the whole backing region and, only when
the erase succeeded, write the candidate record over the whole region
(short-circuit evaluation: a failed erase skips the write and reports
failure; a failed write reports failure and leaves the post-erase state). -/
def FlashClass.eraseWrite (fc : FlashClass) (phys : Nat) (pkg : List Nat)
    (st : FlashMem) : Bool × FlashMem :=
  if (fc.eraseRange phys fc.flash_address fc.flash_size st).1 then
    ((fc.write fc.flash_address (bytesAt pkg) fc.flash_size
        (fc.eraseRange phys fc.flash_address fc.flash_size st).2).isSome,
      (fc.write fc.flash_address (bytesAt pkg) fc.flash_size
        (fc.eraseRange phys fc.flash_address fc.flash_size st).2).getD
        (fc.eraseRange phys fc.flash_address fc.flash_size st).2)
  else
    (false, (fc.eraseRange phys fc.flash_address fc.flash_size st).2)

/-- Mirror of `FlashStorageClass::write` (header lines 130-147): build the
candidate record; read the currently stored record and, if the read
succeeds and the candidate is byte-identical to what is stored (`memcmp`
over the whole record), return success without touching the hardware;
otherwise erase the backing region and write the candidate.  The C guard
`flash.read(&existing)` succeeds and `memcmp(&pkg, &existing, ...) == 0`
is expressed as the read yielding exactly the candidate bytes. -/
def FlashStorageClass.write (s : FlashStorageClass) (phys : Nat)
    (v : List Nat) (st : FlashMem) : Bool × FlashMem :=
  if s.flash.read s.flash.flash_address s.flash.flash_size st
      = some (s.pkgOf v) then
    (true, st)
  else
    s.flash.eraseWrite phys (s.pkgOf v) st

/-- Mirror of the boolean `FlashStorageClass::read(T*)` (header lines
151-170): read the whole record out of flash; fail if the region read
fails, if the stored identity tag differs from this store's tag, or if the
checksum recomputed over the stored payload differs from the stored
checksum; otherwise yield the stored payload. -/
def FlashStorageClass.readBool (s : FlashStorageClass) (st : FlashMem) :
    Option (List Nat) :=
  match s.flash.read s.flash.flash_address s.flash.flash_size st with
  | none => none
  | some bytes =>
    let id := bytes.getD 0 0 + 256 * bytes.getD 1 0
    if id ≠ s.variable_hash then
      none
    else
      let payload := (bytes.drop 2).take s.sizeofT
      let stored := bytes.getD (2 + s.sizeofT) 0 +
        256 * bytes.getD (2 + s.sizeofT + 1) 0
      if stored ≠ calcChecksum payload then none else some payload

/-- Mirror of the convenience `T FlashStorageClass::read()` (header line
175): `T data; read(&data); return data;`.  Every failure path of the
boolean `read` returns before `*data` is assigned, so on failure the local
`data` is returned with its initial contents untouched; `dflt` is that
initial value (the value `T data;` default-initializes to: the
value-default instance for a `T` whose default construction initializes
it). -/
def FlashStorageClass.read (s : FlashStorageClass) (dflt : List Nat)
    (st : FlashMem) : List Nat :=
  match s.readBool st with
  | some v => v
  | none => dflt

/-- An external single-bit corruption of the byte stored at address
`addr`: bit `k` of that byte is flipped, no other byte changes, and no
driver operation is involved. -/
def flipByteBit (st : FlashMem) (addr k : Nat) : FlashMem :=
  { st with mem := fun a => if a = addr then st.mem a ^^^ 2 ^ k else st.mem a }

/-- The bit-mixing step `sum ^= (sum >> 8)` of `calcChecksum`, as a
function of the current 16-bit sum. -/
def mix16 (x : Nat) : Nat := x ^^^ (x >>> 8)

/-- The number of single-row erase commands needed for `size` bytes with
row size `R`: `k` full rows plus one more when a nonzero partial remainder
is left, where `size = k * R + r` with `r < R`. -/
def rowCount (R size : Nat) : Nat :=
  size / R + (if size % R = 0 then 0 else 1)

/-! Concrete fixtures used by the witness and counterexample theorems -/

/-- Sample region used by the witnesses: base 4096, declared length 64. -/
def fcWit : FlashClass := ⟨64, 256, 4096, 64⟩

/-- Sample flash state used by the witnesses: all bytes erased, no erase
commands issued yet. -/
def stWit : FlashMem := ⟨fun _ => 255, []⟩

/-- Sample typed store A used by the witnesses: a two-byte payload type
under the variable name "a" (character code 97), backed at base 0 (bounds
bypassed, as under the `NULL`-base constructor default). -/
def storeA : FlashStorageClass := ⟨⟨64, 256, 0, 6⟩, hash_variable [97] 2, 2⟩

/-- Typed store with the variable name "alt" (codes 97, 108, 116) over the
same raw bytes and payload size as `storeA`: its name hash collides with
the hash of "a". -/
def storeB : FlashStorageClass :=
  ⟨⟨64, 256, 0, 6⟩, hash_variable [97, 108, 116] 2, 2⟩

/-- Typed store with the same variable name "a" as `storeA` but a
three-byte payload type, over the same base address. -/
def storeC : FlashStorageClass := ⟨⟨64, 256, 0, 7⟩, hash_variable [97] 3, 3⟩

/-! Bounds checking (claims C1 and C10) -/

/-- When the region has a nonzero length and a non-null base, a range
accepted by `isWithinBounds` starts at or after the base, ends at or before
the end of the region, and its end does not overflow the address width. -/
theorem isWithinBounds_necessary (fc : FlashClass) (ptr size : Nat)
    (hL : fc.flash_size ≠ 0) (hb : fc.flash_address ≠ 0)
    (hsize : size < ADDR_MOD)
    (h : fc.isWithinBounds ptr size = true) :
    fc.flash_address ≤ ptr ∧
      ptr + size ≤ fc.flash_address + fc.flash_size ∧
      ptr + size ≤ UINTPTR_MAX := by
  unfold FlashClass.isWithinBounds at h
  rw [if_neg (by simp [hL, hb])] at h
  split at h
  · exact absurd h (by simp)
  · rename_i hov
    simp only [Bool.and_eq_true, decide_eq_true_eq] at h
    refine ⟨h.1, ?_, ?_⟩
    · exact le_trans h.2 (Nat.mod_le _ _)
    · have := Nat.le_of_not_lt hov
      unfold UINTPTR_MAX ADDR_MOD at *
      omega

/-- A successful `read` passed the bounds check. -/
theorem read_isSome_bounds (fc : FlashClass) (ptr size : Nat) (st : FlashMem)
    (h : (fc.read ptr size st).isSome = true) :
    fc.isWithinBounds ptr size = true := by
  unfold FlashClass.read at h
  split at h
  · assumption
  · simp at h

/-- A successful `write` passed the bounds check. -/
theorem write_isSome_bounds (fc : FlashClass) (ptr : Nat) (src : Nat → Nat)
    (size : Nat) (st : FlashMem)
    (h : (fc.write ptr src size st).isSome = true) :
    fc.isWithinBounds ptr size = true := by
  unfold FlashClass.write at h
  split at h
  · assumption
  · simp at h

/-- A successful `erase` passed the bounds check. -/
theorem eraseRange_bounds (fc : FlashClass) (phys ptr size : Nat)
    (st : FlashMem) (h : (fc.eraseRange phys ptr size st).1 = true) :
    fc.isWithinBounds ptr size = true := by
  unfold FlashClass.eraseRange at h
  split at h
  · assumption
  · simp at h

/-- C1: for every `FlashClass` region with declared length `L > 0` and
non-null base address, each of `read(ptr, data, size)`,
`write(ptr, data, size)` and `erase(ptr, size)` succeeds only if
`ptr >= base`, `ptr + size <= base + L`, and `ptr + size` does not overflow
the address width (the sum is accepted only after the overflow check
passes); for a region with `L == 0`, every requested range is accepted. -/
theorem c1_bounds_safety (fc : FlashClass) (phys ptr size : Nat)
    (src : Nat → Nat) (st : FlashMem)
    (hL : 0 < fc.flash_size) (hb : fc.flash_address ≠ 0)
    (hsize : size < ADDR_MOD) :
    ((fc.read ptr size st).isSome = true →
      fc.flash_address ≤ ptr ∧
        ptr + size ≤ fc.flash_address + fc.flash_size ∧
        ptr + size ≤ UINTPTR_MAX) ∧
    ((fc.write ptr src size st).isSome = true →
      fc.flash_address ≤ ptr ∧
        ptr + size ≤ fc.flash_address + fc.flash_size ∧
        ptr + size ≤ UINTPTR_MAX) ∧
    ((fc.eraseRange phys ptr size st).1 = true →
      fc.flash_address ≤ ptr ∧
        ptr + size ≤ fc.flash_address + fc.flash_size ∧
        ptr + size ≤ UINTPTR_MAX) ∧
    (∀ fc2 : FlashClass, fc2.flash_size = 0 →
      ∀ ptr2 size2 : Nat, ∀ st2 : FlashMem,
        fc2.isWithinBounds ptr2 size2 = true ∧
          (fc2.read ptr2 size2 st2).isSome = true ∧
          (fc2.write ptr2 src size2 st2).isSome = true) := by
  have hL' : fc.flash_size ≠ 0 := Nat.pos_iff_ne_zero.mp hL
  refine ⟨?_, ?_, ?_, ?_⟩
  · intro h
    exact isWithinBounds_necessary fc ptr size hL' hb hsize
      (read_isSome_bounds fc ptr size st h)
  · intro h
    exact isWithinBounds_necessary fc ptr size hL' hb hsize
      (write_isSome_bounds fc ptr src size st h)
  · intro h
    exact isWithinBounds_necessary fc ptr size hL' hb hsize
      (eraseRange_bounds fc phys ptr size st h)
  · intro fc2 h0 ptr2 size2 st2
    have hbd : fc2.isWithinBounds ptr2 size2 = true := by
      unfold FlashClass.isWithinBounds
      rw [if_pos (by simp [h0])]
    refine ⟨hbd, ?_, ?_⟩
    · unfold FlashClass.read
      rw [if_pos hbd]
      rfl
    · unfold FlashClass.write
      rw [if_pos hbd]
      rfl

/-- Witness for C1 at a concrete in-bounds read on a concrete region. -/
theorem c1_bounds_safety_witness :
    (fcWit.read 4100 8 stWit).isSome = true ∧
      (4096 ≤ 4100 ∧ 4100 + 8 ≤ 4096 + 64 ∧ 4100 + 8 ≤ UINTPTR_MAX) :=
  ⟨by decide,
    (c1_bounds_safety fcWit 100000 4100 8 (fun _ => 0) stWit
      (by decide) (by decide) (by decide)).1 (by decide)⟩

/-- C10 (implicit): when a `FlashClass` region is constructed with a NULL
base address, bounds checking is bypassed entirely even if the declared
length is nonzero: every requested `(ptr, size)` range, including ranges
whose `ptr + size` overflows the address width, is accepted by `read`,
`write` and `erase` exactly as in the length-zero case. -/
theorem c10_null_base_bypass (fc : FlashClass) (phys ptr size : Nat)
    (src : Nat → Nat) (st : FlashMem) (hb : fc.flash_address = 0) :
    fc.isWithinBounds ptr size = true ∧
      (fc.read ptr size st).isSome = true ∧
      (fc.write ptr src size st).isSome = true ∧
      fc.eraseRange phys ptr size st =
        fc.eraseLoop phys (size + 1) ptr size st ∧
      fc.isWithinBounds ptr size =
        FlashClass.isWithinBounds
          ⟨fc.PAGE_SIZE, fc.ROW_SIZE, fc.flash_address, 0⟩ ptr size := by
  have hbd : fc.isWithinBounds ptr size = true := by
    unfold FlashClass.isWithinBounds
    rw [if_pos (by simp [hb])]
  refine ⟨hbd, ?_, ?_, ?_, ?_⟩
  · unfold FlashClass.read
    rw [if_pos hbd]
    rfl
  · unfold FlashClass.write
    rw [if_pos hbd]
    rfl
  · unfold FlashClass.eraseRange
    rw [if_pos hbd]
  · rw [hbd]
    unfold FlashClass.isWithinBounds
    rw [if_pos (by simp)]

/-- Witness for C10: a NULL-base region with nonzero declared length
accepts a range whose end overflows the 32-bit address width. -/
theorem c10_null_base_bypass_witness :
    FlashClass.isWithinBounds ⟨64, 256, 0, 64⟩ (ADDR_MOD - 1) (ADDR_MOD - 1)
        = true ∧
      ((⟨64, 256, 0, 64⟩ : FlashClass).read (ADDR_MOD - 1) 0 stWit).isSome
        = true :=
  ⟨(c10_null_base_bypass ⟨64, 256, 0, 64⟩ 0 (ADDR_MOD - 1) (ADDR_MOD - 1)
      (fun _ => 0) stWit rfl).1,
    (c10_null_base_bypass ⟨64, 256, 0, 64⟩ 0 (ADDR_MOD - 1) 0
      (fun _ => 0) stWit rfl).2.1⟩

/-! Erase decomposition (claim C5) -/

/-- A successful single-row erase appends its (row-aligned, physically
in-range) target address to the erase trace. -/
theorem eraseRow_true (fc : FlashClass) (phys ptr : Nat) (st : FlashMem)
    (h : (fc.eraseRow phys ptr st).1 = true) :
    (fc.eraseRow phys ptr st).2.erases = st.erases ++ [ptr] ∧
      ptr % fc.ROW_SIZE = 0 ∧ ptr < phys := by
  unfold FlashClass.eraseRow at *
  split at h
  · rename_i hcond
    exact ⟨by rw [if_pos hcond], hcond.1, hcond.2⟩
  · simp at h

/-- `rowCount` counts one more row after a leading full row is removed. -/
theorem rowCount_step (R size : Nat) (hR : 0 < R) (hlt : R < size) :
    rowCount R size = rowCount R (size - R) + 1 := by
  obtain ⟨t, rfl⟩ : ∃ t, size = R + t := ⟨size - R, by omega⟩
  unfold rowCount
  rw [Nat.add_sub_cancel_left, Nat.add_div_left t hR, Nat.add_mod_left]
  by_cases h : t % R = 0
  · rw [if_pos h]
  · rw [if_neg h]

/-- A trailing partial-or-full row counts as one row. -/
theorem rowCount_last (R size : Nat) (hR : 0 < R) (h1 : 0 < size)
    (h2 : size ≤ R) : rowCount R size = 1 := by
  unfold rowCount
  rcases Nat.eq_or_lt_of_le h2 with h | h
  · rw [h, Nat.div_self hR, Nat.mod_self]
    simp
  · rw [Nat.div_eq_of_lt h, Nat.mod_eq_of_lt h, if_neg (by omega)]

/-- The erase loop, run with enough fuel, appends to the erase trace
exactly the `rowCount` consecutive row addresses starting at `ptr`, and it
succeeds only from a row-aligned start (when it erases at all). -/
theorem eraseLoop_erases (fc : FlashClass) (phys : Nat)
    (hR : 0 < fc.ROW_SIZE) :
    ∀ fuel size ptr : Nat, ∀ st : FlashMem, size < fuel →
      (fc.eraseLoop phys fuel ptr size st).1 = true →
      (fc.eraseLoop phys fuel ptr size st).2.erases =
        st.erases ++ (List.range (rowCount fc.ROW_SIZE size)).map
          (fun i => ptr + fc.ROW_SIZE * i) ∧
        (0 < size → ptr % fc.ROW_SIZE = 0) := by
  intro fuel
  induction fuel with
  | zero => intro size ptr st h; omega
  | succ fuel ih =>
    intro size ptr st hlt hsucc
    rw [FlashClass.eraseLoop] at hsucc ⊢
    by_cases h1 : fc.ROW_SIZE < size
    · rw [if_pos h1] at hsucc ⊢
      by_cases hb : (fc.eraseRow phys ptr st).1 = true
      case neg =>
        rw [if_neg hb] at hsucc
        simp at hsucc
      case pos =>
        rw [if_pos hb] at hsucc ⊢
        obtain ⟨htr, halign, _⟩ := eraseRow_true fc phys ptr st hb
        have hih := ih (size - fc.ROW_SIZE) (ptr + fc.ROW_SIZE)
          (fc.eraseRow phys ptr st).2 (by omega) hsucc
        refine ⟨?_, fun _ => halign⟩
        rw [hih.1, htr, rowCount_step fc.ROW_SIZE size hR h1,
          List.range_succ_eq_map]
        simp only [List.map_cons, List.map_map, Nat.mul_zero, Nat.add_zero,
          List.append_assoc, List.cons_append, List.nil_append]
        congr 2
        apply List.map_congr_left
        intro a _
        simp only [Function.comp_apply, Nat.succ_eq_add_one]
        ring
    · rw [if_neg h1] at hsucc ⊢
      by_cases h2 : 0 < size
      · rw [if_pos h2] at hsucc ⊢
        have hrow := eraseRow_true fc phys ptr st hsucc
        refine ⟨?_, fun _ => hrow.2.1⟩
        rw [hrow.1, rowCount_last fc.ROW_SIZE size hR h2 (by omega)]
        have h01 : List.range 1 = [0] := rfl
        rw [h01]
        simp
      · rw [if_neg h2] at hsucc ⊢
        have hz : size = 0 := by omega
        refine ⟨?_, fun h => absurd h h2⟩
        subst hz
        simp [rowCount]

/-- The requested byte count never exceeds the bytes covered by the
erased rows. -/
theorem rowCount_covers (R size : Nat) (hR : 0 < R) :
    size ≤ rowCount R size * R := by
  unfold rowCount
  have hdm := Nat.div_add_mod size R
  have hm : size % R < R := Nat.mod_lt size hR
  by_cases h : size % R = 0
  · rw [if_pos h, Nat.add_zero, Nat.mul_comm]
    omega
  · rw [if_neg h, Nat.add_mul, Nat.one_mul, Nat.mul_comm (size / R) R]
    omega

/-- C5: for every `n`, `p` and region row size `R`,
`FlashClass::erase(p, n)` on success issues exactly
`k + (1 if r > 0 else 0)` single-row erase commands, where
`n = k * R + r` with `0 <= r < R`; the commands target the consecutive
row-aligned addresses `p, p + R, ...`, covering `[p, p + n)` with no gaps
and no row erased twice. -/
theorem c5_erase_decomposition (fc : FlashClass) (phys p n : Nat)
    (st : FlashMem) (hR : 0 < fc.ROW_SIZE)
    (hsucc : (fc.eraseRange phys p n st).1 = true) :
    (fc.eraseRange phys p n st).2.erases =
      st.erases ++ (List.range (rowCount fc.ROW_SIZE n)).map
        (fun i => p + fc.ROW_SIZE * i) ∧
      rowCount fc.ROW_SIZE n =
        n / fc.ROW_SIZE + (if n % fc.ROW_SIZE = 0 then 0 else 1) ∧
      (0 < n → p % fc.ROW_SIZE = 0) ∧
      ((List.range (rowCount fc.ROW_SIZE n)).map
        (fun i => p + fc.ROW_SIZE * i)).Nodup ∧
      (∀ a : Nat, p ≤ a → a < p + n →
        ∃ i : Nat, i < rowCount fc.ROW_SIZE n ∧
          p + fc.ROW_SIZE * i ≤ a ∧
          a < p + fc.ROW_SIZE * i + fc.ROW_SIZE) := by
  unfold FlashClass.eraseRange at hsucc ⊢
  split at hsucc
  case isFalse => simp at hsucc
  case isTrue hbd =>
    rw [if_pos hbd]
    have hmain := eraseLoop_erases fc phys hR (n + 1) n p st (by omega) hsucc
    refine ⟨hmain.1, rfl, hmain.2, ?_, ?_⟩
    · apply List.Nodup.map ?_ (List.nodup_range _)
      intro i j hij
      have hij2 : p + fc.ROW_SIZE * i = p + fc.ROW_SIZE * j := hij
      have : fc.ROW_SIZE * i = fc.ROW_SIZE * j := by omega
      exact Nat.eq_of_mul_eq_mul_left hR this
    · intro a hpa han
      refine ⟨(a - p) / fc.ROW_SIZE, ?_, ?_, ?_⟩
      · have hcov := rowCount_covers fc.ROW_SIZE n hR
        have : a - p < rowCount fc.ROW_SIZE n * fc.ROW_SIZE := by omega
        exact (Nat.div_lt_iff_lt_mul hR).mpr this
      · have := Nat.div_mul_le_self (a - p) fc.ROW_SIZE
        have h2 : fc.ROW_SIZE * ((a - p) / fc.ROW_SIZE) =
            (a - p) / fc.ROW_SIZE * fc.ROW_SIZE := Nat.mul_comm _ _
        omega
      · have hdm := Nat.div_add_mod (a - p) fc.ROW_SIZE
        have hm : (a - p) % fc.ROW_SIZE < fc.ROW_SIZE :=
          Nat.mod_lt _ hR
        omega

/-- Witness for C5: erasing 600 bytes with row size 256 issues exactly the
three row commands at 0, 256 and 512. -/
theorem c5_erase_decomposition_witness :
    ((⟨64, 256, 0, 0⟩ : FlashClass).eraseRange 100000 0 600 stWit).1
        = true ∧
      ((⟨64, 256, 0, 0⟩ : FlashClass).eraseRange 100000 0 600
          stWit).2.erases =
        stWit.erases ++ (List.range (rowCount 256 600)).map
          (fun i => 0 + 256 * i) :=
  ⟨by decide,
    (c5_erase_decomposition ⟨64, 256, 0, 0⟩ 100000 0 600 stWit
      (by decide) (by decide)).1⟩

/-! Write effect and frame (claim C8) -/

/-- A write request of `size` bytes is padded to whole 32-bit words. -/
theorem size_le_four_numWords (size : Nat) : size ≤ 4 * numWords size := by
  unfold numWords
  omega

/-- C8 (amended): on success, `FlashClass::write(ptr, src, size)` gives the
first `size` flash bytes at `ptr` the values of the first `size` bytes of
`src`, and programs whole 32-bit words: exactly the `4 * ceil(size / 4)`
bytes starting at `ptr` are written (the up-to-3 padding bytes take the
values of the source bytes just past the buffer), no flash byte outside
`[ptr, ptr + 4 * ceil(size / 4))` is modified, and when `size` is a
multiple of four no byte outside `[ptr, ptr + size)` is modified.  No
erase command is issued. -/
theorem c8_write_frame (fc : FlashClass) (ptr size : Nat) (src : Nat → Nat)
    (st : FlashMem) (h : (fc.write ptr src size st).isSome = true) :
    (∀ i : Nat, i < size →
      ((fc.write ptr src size st).getD st).mem (ptr + i) = src i) ∧
    (∀ a : Nat, a < ptr ∨ ptr + 4 * numWords size ≤ a →
      ((fc.write ptr src size st).getD st).mem a = st.mem a) ∧
    (size % 4 = 0 → ∀ a : Nat, a < ptr ∨ ptr + size ≤ a →
      ((fc.write ptr src size st).getD st).mem a = st.mem a) ∧
    ((fc.write ptr src size st).getD st).erases = st.erases := by
  unfold FlashClass.write at *
  split at h
  case isFalse => simp at h
  case isTrue hbd =>
    rw [if_pos hbd]
    simp only [Option.getD_some]
    refine ⟨?_, ?_, ?_, trivial⟩
    · intro i hi
      have hcond : ptr ≤ ptr + i ∧ ptr + i < ptr + 4 * numWords size := by
        have := size_le_four_numWords size
        omega
      rw [if_pos hcond, Nat.add_sub_cancel_left]
    · intro a ha
      have hcond : ¬(ptr ≤ a ∧ a < ptr + 4 * numWords size) := by omega
      exact if_neg hcond
    · intro h4 a ha
      have heq : 4 * numWords size = size := by
        unfold numWords
        omega
      have hcond : ¬(ptr ≤ a ∧ a < ptr + 4 * numWords size) := by
        rw [heq]
        omega
      exact if_neg hcond

/-- Witness for C8 at a concrete successful 4-byte write. -/
theorem c8_write_frame_witness :
    ((fcWit.write 4096 (fun i => i + 40) 4 stWit).isSome = true) ∧
      ((fcWit.write 4096 (fun i => i + 40) 4 stWit).getD stWit).mem 4097
        = 41 :=
  ⟨by decide,
    (c8_write_frame fcWit 4096 4 (fun i => i + 40) stWit (by decide)).1
      1 (by decide)⟩

/-- Counterexample to C8 as stated: a successful one-byte write
(`size = 1`) at address 16 modifies the flash byte at address 19, which
lies outside the requested range `[16, 17)` — the driver programs a whole
32-bit word.  The claim that no flash byte outside `[ptr, ptr + size)` is
modified is therefore false. -/
theorem c8_counterexample :
    ((FlashClass.write ⟨64, 256, 0, 0⟩ 16 (fun _ => 7) 1
        ⟨fun _ => 255, []⟩).map (fun m => m.mem 19)) = some 7 ∧
      (255 : Nat) ≠ 7 ∧ ¬ (19 < 16 + 1) := by
  constructor
  · rfl
  · constructor
    · decide
    · decide

/-! The checksum algorithm (groundwork for claims C2, C3 and C4) -/

/-- Shifting right distributes over XOR. -/
theorem shiftRight_xor_distrib (a b n : Nat) :
    (a ^^^ b) >>> n = (a >>> n) ^^^ (b >>> n) := by
  apply Nat.eq_of_testBit_eq
  intro i
  simp

/-- The checksum step is the mixing function applied to the wrapped sum. -/
theorem checksumStep_def (sum b : Nat) :
    checksumStep sum b = mix16 ((sum + b) % 65536) := rfl

/-- The mixing step stays within 16 bits. -/
theorem mix16_lt (x : Nat) (h : x < 65536) : mix16 x < 65536 := by
  have h2 : x >>> 8 < 65536 :=
    Nat.lt_of_le_of_lt (Nat.shiftRight_eq_div_pow x 8 ▸ Nat.div_le_self x _) h
  have h16 : (65536 : Nat) = 2 ^ 16 := by norm_num
  unfold mix16
  rw [h16] at h h2 ⊢
  exact Nat.xor_lt_two_pow h h2

/-- The mixing step is an involution on 16-bit values: the high byte is
unchanged and can be XORed out of the low byte again. -/
theorem mix16_invol (x : Nat) (h : x < 65536) : mix16 (mix16 x) = x := by
  have hh : x >>> 8 >>> 8 = 0 := by
    rw [Nat.shiftRight_eq_div_pow, Nat.shiftRight_eq_div_pow]
    apply Nat.div_eq_of_lt
    rw [Nat.div_lt_iff_lt_mul (by norm_num : 0 < 2 ^ 8)]
    omega
  unfold mix16
  rw [shiftRight_xor_distrib, hh, Nat.xor_zero, Nat.xor_assoc, Nat.xor_self,
    Nat.xor_zero]

/-- The mixing step is injective on 16-bit values. -/
theorem mix16_inj (x y : Nat) (hx : x < 65536) (hy : y < 65536)
    (h : mix16 x = mix16 y) : x = y := by
  rw [← mix16_invol x hx, ← mix16_invol y hy, h]

/-- The checksum step stays within 16 bits. -/
theorem checksumStep_lt (sum b : Nat) : checksumStep sum b < 65536 := by
  rw [checksumStep_def]
  exact mix16_lt _ (Nat.mod_lt _ (by norm_num))

/-- The checksum step is injective in the running sum. -/
theorem checksumStep_left_inj (s1 s2 b : Nat) (h1 : s1 < 65536)
    (h2 : s2 < 65536) (h : checksumStep s1 b = checksumStep s2 b) :
    s1 = s2 := by
  rw [checksumStep_def, checksumStep_def] at h
  have e : (s1 + b) % 65536 = (s2 + b) % 65536 :=
    mix16_inj _ _ (Nat.mod_lt _ (by norm_num)) (Nat.mod_lt _ (by norm_num)) h
  omega

/-- The checksum step distinguishes bytes that differ modulo 2^16. -/
theorem checksumStep_right_ne (s b1 b2 : Nat)
    (hne : b1 % 65536 ≠ b2 % 65536) :
    checksumStep s b1 ≠ checksumStep s b2 := by
  intro h
  rw [checksumStep_def, checksumStep_def] at h
  have e : (s + b1) % 65536 = (s + b2) % 65536 :=
    mix16_inj _ _ (Nat.mod_lt _ (by norm_num)) (Nat.mod_lt _ (by norm_num)) h
  omega

/-- Folding the checksum step keeps the sum within 16 bits. -/
theorem foldl_checksumStep_lt (l : List Nat) :
    ∀ s : Nat, s < 65536 → l.foldl checksumStep s < 65536 := by
  induction l with
  | nil => intro s h; simpa using h
  | cons c rest ih =>
    intro s h
    rw [List.foldl_cons]
    exact ih _ (checksumStep_lt _ _)

/-- Folding the checksum step over a common suffix is injective in the
incoming sum. -/
theorem foldl_checksumStep_inj (l : List Nat) :
    ∀ s1 s2 : Nat, s1 < 65536 → s2 < 65536 → s1 ≠ s2 →
      l.foldl checksumStep s1 ≠ l.foldl checksumStep s2 := by
  induction l with
  | nil => intro s1 s2 _ _ hne; simpa using hne
  | cons c rest ih =>
    intro s1 s2 h1 h2 hne
    rw [List.foldl_cons, List.foldl_cons]
    exact ih _ _ (checksumStep_lt _ _) (checksumStep_lt _ _)
      (fun h => hne (checksumStep_left_inj s1 s2 c h1 h2 h))

/-- The checksum is a 16-bit value. -/
theorem calcChecksum_lt (l : List Nat) : calcChecksum l < 65536 :=
  foldl_checksumStep_lt l 42405 (by norm_num)

/-- Changing one byte (modulo 2^16) changes the checksum: the seed and
every step stay in the 16-bit range, the differing byte produces two
different 16-bit sums, and the common suffix preserves the difference. -/
theorem calcChecksum_ne_single (p s : List Nat) (b1 b2 : Nat)
    (h : b1 % 65536 ≠ b2 % 65536) :
    calcChecksum (p ++ b1 :: s) ≠ calcChecksum (p ++ b2 :: s) := by
  unfold calcChecksum
  rw [List.foldl_append, List.foldl_append, List.foldl_cons, List.foldl_cons]
  exact foldl_checksumStep_inj s _ _ (checksumStep_lt _ _)
    (checksumStep_lt _ _) (checksumStep_right_ne _ b1 b2 h)

/-- Flipping bit `k < 16` of a byte changes its value modulo 2^16. -/
theorem xor_two_pow_mod_ne (x k : Nat) (hk : k < 16) :
    (x ^^^ 2 ^ k) % 65536 ≠ x % 65536 := by
  have h16 : (65536 : Nat) = 2 ^ 16 := by norm_num
  rw [h16]
  intro h
  have htb := congrArg (fun y => y.testBit k) h
  have hd : decide (k < 16) = true := decide_eq_true hk
  simp only [Nat.testBit_mod_two_pow, Nat.testBit_xor,
    Nat.testBit_two_pow_self, hd, Bool.true_and, Bool.xor_true] at htb
  simp at htb

/-- Flipping a bit changes the byte. -/
theorem xor_two_pow_ne_self (x k : Nat) : x ^^^ 2 ^ k ≠ x := by
  intro h
  have h0 : x ^^^ 2 ^ k = x ^^^ 0 := by rw [Nat.xor_zero]; exact h
  have := Nat.xor_right_injective h0
  exact absurd this (Nat.pos_iff_ne_zero.mp (Nat.two_pow_pos k))

/-! List access groundwork for the record parser -/

/-- Indexing a mapped range below its length. -/
theorem getD_map_range (g : Nat → Nat) (n i : Nat) (h : i < n) :
    ((List.range n).map g).getD i 0 = g i := by
  rw [List.getD_eq_getElem _ _ (by simpa using h)]
  simp

/-- Reading a whole buffer back through `bytesAt` reproduces the list. -/
theorem range_map_bytesAt (l : List Nat) :
    (List.range l.length).map (bytesAt l) = l := by
  apply List.ext_getElem (by simp)
  intro i h1 h2
  simp only [List.getElem_map, List.getElem_range, bytesAt]
  exact List.getD_eq_getElem l 0 h2

/-- The payload slice of a mapped range is the mapped range of offsets. -/
theorem take_drop_map_range (g : Nat → Nat) (rs n : Nat) (h : 2 + n ≤ rs) :
    (((List.range rs).map g).drop 2).take n =
      (List.range n).map (fun t => g (2 + t)) := by
  apply List.ext_getElem (by simp; omega)
  intro i h1 h2
  have hi : i < n := by simpa using h2
  simp [List.getElem_take, List.getElem_drop, Nat.add_comm]

/-- A mapped range split at one interior index. -/
theorem range_map_split (g : Nat → Nat) (n i0 : Nat) (hi : i0 < n) :
    (List.range n).map g =
      ((List.range i0).map g) ++ g i0 ::
        ((List.range (n - i0 - 1)).map (fun t => g (i0 + 1 + t))) := by
  obtain ⟨m, hm⟩ : ∃ m, n - i0 - 1 = m := ⟨_, rfl⟩
  rw [hm]
  have h1 : n = i0 + (1 + m) := by omega
  subst h1
  rw [List.range_add, List.map_append, List.map_map]
  congr 1
  rw [List.range_add]
  have hr1 : List.range 1 = [0] := rfl
  rw [hr1, List.map_append, List.map_map]
  simp only [List.map_cons, List.map_nil, Function.comp_apply, Nat.add_zero,
    List.cons_append, List.nil_append]
  congr 1
  apply List.map_congr_left
  intro a _
  simp only [Function.comp_apply]
  exact congrArg g (by omega)

/-- Changing a single mapped index changes the checksum of the mapped
range, provided the change is visible modulo 2^16. -/
theorem calcChecksum_map_range_ne (g g2 : Nat → Nat) (n i0 : Nat)
    (hi : i0 < n) (hsame : ∀ i : Nat, i < n → i ≠ i0 → g i = g2 i)
    (hdiff : g i0 % 65536 ≠ g2 i0 % 65536) :
    calcChecksum ((List.range n).map g) ≠
      calcChecksum ((List.range n).map g2) := by
  rw [range_map_split g n i0 hi, range_map_split g2 n i0 hi]
  have hpre : (List.range i0).map g = (List.range i0).map g2 := by
    apply List.map_congr_left
    intro a ha
    have : a < i0 := List.mem_range.mp ha
    exact hsame a (by omega) (by omega)
  have hsuf : (List.range (n - i0 - 1)).map (fun t => g (i0 + 1 + t)) =
      (List.range (n - i0 - 1)).map (fun t => g2 (i0 + 1 + t)) := by
    apply List.map_congr_left
    intro a ha
    have : a < n - i0 - 1 := List.mem_range.mp ha
    exact hsame (i0 + 1 + a) (by omega) (by omega)
  rw [hpre, hsuf]
  exact calcChecksum_ne_single _ _ _ _ hdiff

/-! The typed record protocol (claims C2, C3 and C6) -/

/-- The candidate record as an explicit byte list: two tag bytes, the
payload, two checksum bytes. -/
theorem pkgOf_cons (s : FlashStorageClass) (v : List Nat) :
    s.pkgOf v = s.variable_hash % 256 :: s.variable_hash / 256 % 256 ::
      (v ++ [calcChecksum v % 256, calcChecksum v / 256 % 256]) := by
  simp [FlashStorageClass.pkgOf, le16]

/-- The record is four bytes longer than the payload. -/
theorem pkgOf_length (s : FlashStorageClass) (v : List Nat) :
    (s.pkgOf v).length = v.length + 4 := by
  rw [pkgOf_cons]
  simp

/-- Reading back a range just written through `FlashClass::write` yields
exactly the written buffer (the write covers at least the requested bytes,
and the read stops at the requested size). -/
theorem read_after_write (fc : FlashClass) (ptr size : Nat) (pkg : List Nat)
    (st st2 : FlashMem) (h : fc.write ptr (bytesAt pkg) size st = some st2)
    (hlen : pkg.length = size) :
    fc.read ptr size st2 = some pkg := by
  unfold FlashClass.write at h
  split at h
  case isFalse => simp at h
  case isTrue hbd =>
    injection h with h2
    subst h2
    unfold FlashClass.read
    rw [if_pos hbd]
    congr 1
    have hmap : ∀ i ∈ List.range size,
        (FlashMem.mk (fun a =>
            if ptr ≤ a ∧ a < ptr + 4 * numWords size then bytesAt pkg (a - ptr)
            else st.mem a) st.erases).mem (ptr + i) = bytesAt pkg i := by
      intro i hi
      have hi' : i < size := List.mem_range.mp hi
      have hc : ptr ≤ ptr + i ∧ ptr + i < ptr + 4 * numWords size := by
        have := size_le_four_numWords size
        omega
      dsimp only
      rw [if_pos hc, Nat.add_sub_cancel_left]
    rw [List.map_congr_left hmap, ← hlen, range_map_bytesAt]

/-- Parsing a stored record that is byte-identical to a candidate record
validates and returns the candidate payload. -/
theorem readBool_pkg (s : FlashStorageClass) (st : FlashMem) (v : List Nat)
    (hhash : s.variable_hash < 65536) (hlen : v.length = s.sizeofT)
    (hread : s.flash.read s.flash.flash_address s.flash.flash_size st
      = some (s.pkgOf v)) :
    s.readBool st = some v := by
  have hc := calcChecksum_lt v
  have h0 : (s.pkgOf v).getD 0 0 = s.variable_hash % 256 := by
    rw [pkgOf_cons]
    rfl
  have h1 : (s.pkgOf v).getD 1 0 = s.variable_hash / 256 % 256 := by
    rw [pkgOf_cons]
    rfl
  have hpay : ((s.pkgOf v).drop 2).take s.sizeofT = v := by
    rw [pkgOf_cons]
    show (v ++ [calcChecksum v % 256, calcChecksum v / 256 % 256]).take
      s.sizeofT = v
    exact List.take_left' hlen
  have hcs1 : (s.pkgOf v).getD (2 + s.sizeofT) 0 = calcChecksum v % 256 := by
    have hidx : 2 + s.sizeofT = s.sizeofT + 2 := by omega
    rw [pkgOf_cons, hidx]
    show (v ++ [calcChecksum v % 256, calcChecksum v / 256 % 256]).getD
      s.sizeofT 0 = calcChecksum v % 256
    rw [← hlen, List.getD_append_right v _ 0 v.length (Nat.le_refl _),
      Nat.sub_self]
    rfl
  have hcs2 : (s.pkgOf v).getD (2 + s.sizeofT + 1) 0
      = calcChecksum v / 256 % 256 := by
    have hidx : 2 + s.sizeofT + 1 = s.sizeofT + 3 := by omega
    rw [pkgOf_cons, hidx]
    show (v ++ [calcChecksum v % 256, calcChecksum v / 256 % 256]).getD
      (s.sizeofT + 1) 0 = calcChecksum v / 256 % 256
    rw [← hlen, List.getD_append_right v _ 0 (v.length + 1) (by omega),
      Nat.add_sub_cancel_left]
    rfl
  unfold FlashStorageClass.readBool
  rw [hread]
  show (if (s.pkgOf v).getD 0 0 + 256 * (s.pkgOf v).getD 1 0
      ≠ s.variable_hash then none
    else if (s.pkgOf v).getD (2 + s.sizeofT) 0 +
        256 * (s.pkgOf v).getD (2 + s.sizeofT + 1) 0
      ≠ calcChecksum (((s.pkgOf v).drop 2).take s.sizeofT) then none
    else some (((s.pkgOf v).drop 2).take s.sizeofT)) = some v
  rw [h0, h1, hpay, hcs1, hcs2]
  rw [if_neg (by omega), if_neg (by omega)]

/-- The wear-avoidance path of `FlashStorageClass::write`: when the read
of the stored record yields exactly the candidate record, the write
reports success and leaves the hardware state untouched. -/
theorem fsc_write_skip (s : FlashStorageClass) (phys : Nat) (v : List Nat)
    (st : FlashMem)
    (hstored : s.flash.read s.flash.flash_address s.flash.flash_size st
      = some (s.pkgOf v)) :
    s.write phys v st = (true, st) := by
  unfold FlashStorageClass.write
  rw [if_pos hstored]

/-- After a successful `FlashStorageClass::write`, the backing region holds
exactly the candidate record bytes: either the write skipped because the
stored record was already identical, or the record was just written. -/
theorem fsc_write_true_read (s : FlashStorageClass) (phys : Nat)
    (v : List Nat) (st : FlashMem)
    (hsz : s.flash.flash_size = s.sizeofT + 4)
    (hlen : v.length = s.sizeofT)
    (h : (s.write phys v st).1 = true) :
    s.flash.read s.flash.flash_address s.flash.flash_size
      (s.write phys v st).2 = some (s.pkgOf v) := by
  unfold FlashStorageClass.write at h ⊢
  by_cases hskip : s.flash.read s.flash.flash_address s.flash.flash_size st
      = some (s.pkgOf v)
  case pos =>
    rw [if_pos hskip]
    exact hskip
  case neg =>
    rw [if_neg hskip] at h ⊢
    unfold FlashClass.eraseWrite at h ⊢
    by_cases herase :
        (s.flash.eraseRange phys s.flash.flash_address s.flash.flash_size
          st).1 = true
    case neg =>
      rw [if_neg herase] at h
      simp at h
    case pos =>
      rw [if_pos herase] at h ⊢
      dsimp only at h ⊢
      obtain ⟨st2, hst2⟩ := Option.isSome_iff_exists.mp h
      rw [hst2, Option.getD_some]
      exact read_after_write s.flash s.flash.flash_address
        s.flash.flash_size (s.pkgOf v) _ st2 hst2
        (by rw [pkgOf_length, hlen, hsz])

/-- C2: for every value `v` of type `T`, after
`FlashStorageClass<T>::write(v)` returns `true`, a subsequent read
(boolean form) succeeds and yields a value byte-identical to `v`, provided
no external modification of the stored bytes happened in between. -/
theorem c2_round_trip (s : FlashStorageClass) (phys : Nat) (v : List Nat)
    (st : FlashMem)
    (hsz : s.flash.flash_size = s.sizeofT + 4)
    (hlen : v.length = s.sizeofT)
    (hhash : s.variable_hash < 65536)
    (h : (s.write phys v st).1 = true) :
    s.readBool (s.write phys v st).2 = some v :=
  readBool_pkg s _ v hhash hlen (fsc_write_true_read s phys v st hsz hlen h)

/-- Witness for C2: a concrete two-byte value written to `storeA` reads
back byte-identically. -/
theorem c2_round_trip_witness :
    (storeA.write 100000 [7, 9] stWit).1 = true ∧
      storeA.readBool (storeA.write 100000 [7, 9] stWit).2 = some [7, 9] :=
  ⟨by decide,
    c2_round_trip storeA 100000 [7, 9] stWit (by decide) (by decide)
      (by decide) (by decide)⟩

/-- C3: `FlashStorageClass<T>::write(v)` is wear-avoiding and idempotent:
if the candidate record (identity tag, payload, checksum) is byte-identical
to the record currently stored, `write` returns `true` without issuing any
erase or write command (the hardware state is untouched); consequently
calling `write(v)` twice in a row with the same `v` issues exactly one
erase (the second call issues no erase command), and the stored bytes after
both calls equal the stored bytes after the first call. -/
theorem c3_wear_avoidance (s : FlashStorageClass) (phys : Nat)
    (v : List Nat) (st st0 : FlashMem)
    (hsz : s.flash.flash_size = s.sizeofT + 4)
    (hlen : v.length = s.sizeofT) :
    (s.flash.read s.flash.flash_address s.flash.flash_size st
        = some (s.pkgOf v) → s.write phys v st = (true, st)) ∧
    ((s.write phys v st0).1 = true →
      s.write phys v (s.write phys v st0).2
          = (true, (s.write phys v st0).2) ∧
        (s.write phys v (s.write phys v st0).2).2.erases
          = (s.write phys v st0).2.erases ∧
        ∀ a : Nat, (s.write phys v (s.write phys v st0).2).2.mem a
          = (s.write phys v st0).2.mem a) := by
  constructor
  · intro hstored
    exact fsc_write_skip s phys v st hstored
  · intro h1
    have hread := fsc_write_true_read s phys v st0 hsz hlen h1
    have hsecond := fsc_write_skip s phys v (s.write phys v st0).2 hread
    exact ⟨hsecond, by rw [hsecond], fun a => by rw [hsecond]⟩

/-- Witness for C3: writing the same two-byte value twice; the second call
reports success and leaves the state of the first call unchanged. -/
theorem c3_wear_avoidance_witness :
    (storeA.write 100000 [7, 9] stWit).1 = true ∧
      storeA.write 100000 [7, 9] (storeA.write 100000 [7, 9] stWit).2
        = (true, (storeA.write 100000 [7, 9] stWit).2) :=
  ⟨by decide,
    ((c3_wear_avoidance storeA 100000 [7, 9] stWit stWit (by decide)
      (by decide)).2 (by decide)).1⟩

/-- C6: for every failing validation (underlying read failure, identity
tag mismatch, or checksum mismatch — all of which make the boolean `read`
return failure before assigning through its out-pointer), the convenience
form `FlashStorageClass<T>::read()` returns its local `T data` unchanged:
the value `T data;` default-initializes to. -/
theorem c6_default_on_failure (s : FlashStorageClass) (st : FlashMem)
    (dflt : List Nat) (h : s.readBool st = none) :
    s.read dflt st = dflt := by
  unfold FlashStorageClass.read
  rw [h]

/-- Witness for C6: reading an erased (never written) region fails
validation and returns the default value. -/
theorem c6_default_on_failure_witness :
    storeA.readBool stWit = none ∧ storeA.read [1, 2] stWit = [1, 2] :=
  ⟨by decide, c6_default_on_failure storeA stWit [1, 2] (by decide)⟩

/-! Corruption detection (claim C4) -/

/-- A validated read implies the region passed the bounds check. -/
theorem readBool_some_bounds (s : FlashStorageClass) (st : FlashMem)
    (w : List Nat) (h : s.readBool st = some w) :
    s.flash.isWithinBounds s.flash.flash_address s.flash.flash_size
      = true := by
  unfold FlashStorageClass.readBool at h
  rcases hr : s.flash.read s.flash.flash_address s.flash.flash_size st
    with _ | bytes
  · rw [hr] at h
    exact Option.noConfusion h
  · exact read_isSome_bounds _ _ _ _ (by rw [hr]; rfl)

/-- The boolean `read`, characterized directly over the memory cells of
the backing region: the identity tag is the first two stored bytes, the
payload the next `sizeofT`, the stored checksum the last two. -/
theorem readBool_mem (s : FlashStorageClass) (st : FlashMem)
    (hbd : s.flash.isWithinBounds s.flash.flash_address s.flash.flash_size
      = true)
    (hsz : s.flash.flash_size = s.sizeofT + 4) :
    s.readBool st =
      (if st.mem (s.flash.flash_address + 0) +
          256 * st.mem (s.flash.flash_address + 1) ≠ s.variable_hash then
        none
      else if st.mem (s.flash.flash_address + (2 + s.sizeofT)) +
          256 * st.mem (s.flash.flash_address + (2 + s.sizeofT + 1)) ≠
          calcChecksum ((List.range s.sizeofT).map
            (fun t => st.mem (s.flash.flash_address + (2 + t)))) then
        none
      else some ((List.range s.sizeofT).map
        (fun t => st.mem (s.flash.flash_address + (2 + t))))) := by
  unfold FlashStorageClass.readBool FlashClass.read
  rw [if_pos hbd]
  have e0 := getD_map_range (fun i => st.mem (s.flash.flash_address + i))
    s.flash.flash_size 0 (by omega)
  have e1 := getD_map_range (fun i => st.mem (s.flash.flash_address + i))
    s.flash.flash_size 1 (by omega)
  have e2 := getD_map_range (fun i => st.mem (s.flash.flash_address + i))
    s.flash.flash_size (2 + s.sizeofT) (by omega)
  have e3 := getD_map_range (fun i => st.mem (s.flash.flash_address + i))
    s.flash.flash_size (2 + s.sizeofT + 1) (by omega)
  have epay := take_drop_map_range
    (fun i => st.mem (s.flash.flash_address + i)) s.flash.flash_size
    s.sizeofT (by omega)
  show (if ((List.range s.flash.flash_size).map
        (fun i => st.mem (s.flash.flash_address + i))).getD 0 0 +
        256 * ((List.range s.flash.flash_size).map
          (fun i => st.mem (s.flash.flash_address + i))).getD 1 0
        ≠ s.variable_hash then none
    else if ((List.range s.flash.flash_size).map
        (fun i => st.mem (s.flash.flash_address + i))).getD
          (2 + s.sizeofT) 0 +
        256 * ((List.range s.flash.flash_size).map
          (fun i => st.mem (s.flash.flash_address + i))).getD
          (2 + s.sizeofT + 1) 0
        ≠ calcChecksum ((((List.range s.flash.flash_size).map
          (fun i => st.mem (s.flash.flash_address + i))).drop 2).take
            s.sizeofT) then none
    else some ((((List.range s.flash.flash_size).map
      (fun i => st.mem (s.flash.flash_address + i))).drop 2).take
        s.sizeofT)) = _
  rw [e0, e1, e2, e3, epay]

/-- Pointwise description of a single-bit flip relative to a base
address. -/
theorem flipByteBit_mem_at (st : FlashMem) (base j k i : Nat) :
    (flipByteBit st (base + j) k).mem (base + i) =
      if i = j then st.mem (base + j) ^^^ 2 ^ k else st.mem (base + i) := by
  unfold flipByteBit
  dsimp only
  by_cases hij : i = j
  · subst hij
    rw [if_pos rfl, if_pos rfl]
  · rw [if_neg (by omega), if_neg hij]

/-- C4: for every stored valid record and every single-bit position within
the stored payload bytes or the stored checksum bytes, flipping that one
bit (without going through `write`) causes every subsequent
`FlashStorageClass<T>::read` to return failure: a payload flip changes the
recomputed checksum away from the stored one, a checksum flip changes the
stored checksum away from the recomputed one. -/
theorem c4_bit_flip_detected (s : FlashStorageClass) (st : FlashMem)
    (w : List Nat) (j k : Nat)
    (hsz : s.flash.flash_size = s.sizeofT + 4)
    (h0 : s.readBool st = some w)
    (hj2 : 2 ≤ j) (hjlt : j < s.sizeofT + 4) (hk : k < 8) :
    s.readBool (flipByteBit st (s.flash.flash_address + j) k) = none := by
  have hbd := readBool_some_bounds s st w h0
  rw [readBool_mem s st hbd hsz] at h0
  rw [readBool_mem s (flipByteBit st (s.flash.flash_address + j) k) hbd hsz]
  simp only [flipByteBit_mem_at] at *
  by_cases hid : st.mem (s.flash.flash_address + 0) +
      256 * st.mem (s.flash.flash_address + 1) ≠ s.variable_hash
  · rw [if_pos hid] at h0
    exact Option.noConfusion h0
  rw [if_neg hid] at h0
  by_cases hcs : st.mem (s.flash.flash_address + (2 + s.sizeofT)) +
      256 * st.mem (s.flash.flash_address + (2 + s.sizeofT + 1)) ≠
      calcChecksum ((List.range s.sizeofT).map
        (fun t => st.mem (s.flash.flash_address + (2 + t))))
  · rw [if_pos hcs] at h0
    exact Option.noConfusion h0
  rw [if_neg hcs] at h0
  have hcseq : st.mem (s.flash.flash_address + (2 + s.sizeofT)) +
      256 * st.mem (s.flash.flash_address + (2 + s.sizeofT + 1)) =
      calcChecksum ((List.range s.sizeofT).map
        (fun t => st.mem (s.flash.flash_address + (2 + t)))) :=
    not_ne_iff.mp hcs
  rw [if_neg (by rw [if_neg (by omega : ¬(0 : Nat) = j),
    if_neg (by omega : ¬(1 : Nat) = j)]; exact hid)]
  rcases Nat.lt_or_ge j (2 + s.sizeofT) with hjA | hjB
  · -- payload flip: the recomputed checksum moves away from the stored one
    have hpaydiff : calcChecksum ((List.range s.sizeofT).map
        (fun t => if 2 + t = j then st.mem (s.flash.flash_address + j) ^^^
          2 ^ k else st.mem (s.flash.flash_address + (2 + t)))) ≠
        calcChecksum ((List.range s.sizeofT).map
          (fun t => st.mem (s.flash.flash_address + (2 + t)))) := by
      apply calcChecksum_map_range_ne _ _ s.sizeofT (j - 2) (by omega)
      · intro i hi hne
        rw [if_neg (by omega)]
      · rw [if_pos (by omega)]
        have hjj : 2 + (j - 2) = j := by omega
        rw [hjj]
        exact xor_two_pow_mod_ne _ k (by omega)
    rw [if_pos ?_]
    rw [if_neg (by omega : ¬2 + s.sizeofT = j),
      if_neg (by omega : ¬2 + s.sizeofT + 1 = j), hcseq]
    exact fun h => hpaydiff (h.symm)
  · -- checksum flip: the stored checksum moves away from the recomputed one
    have hpayeq : ((List.range s.sizeofT).map
        (fun t => if 2 + t = j then st.mem (s.flash.flash_address + j) ^^^
          2 ^ k else st.mem (s.flash.flash_address + (2 + t)))) =
        ((List.range s.sizeofT).map
          (fun t => st.mem (s.flash.flash_address + (2 + t)))) := by
      apply List.map_congr_left
      intro t ht
      have : t < s.sizeofT := List.mem_range.mp ht
      rw [if_neg (by omega)]
    rw [if_pos ?_]
    rw [hpayeq, ← hcseq]
    rcases Nat.eq_or_lt_of_le hjB with hjeq | hjgt
    · -- the low checksum byte is flipped
      rw [if_pos (by omega : 2 + s.sizeofT = j),
        if_neg (by omega : ¬2 + s.sizeofT + 1 = j)]
      intro hcon
      have hx := xor_two_pow_ne_self (st.mem (s.flash.flash_address + j)) k
      have hjj : (2 : Nat) + s.sizeofT = j := by omega
      rw [hjj] at hcon
      omega
    · -- the high checksum byte is flipped
      have hjeq : j = 2 + s.sizeofT + 1 := by omega
      rw [if_neg (by omega : ¬2 + s.sizeofT = j),
        if_pos (by omega : 2 + s.sizeofT + 1 = j)]
      intro hcon
      have hx := xor_two_pow_ne_self (st.mem (s.flash.flash_address + j)) k
      rw [hjeq] at hcon hx
      omega

/-- Witness for C4: after a concrete valid write, flipping bit 0 of the
first payload byte makes the read fail. -/
theorem c4_bit_flip_detected_witness :
    storeA.readBool (storeA.write 100000 [7, 9] stWit).2 = some [7, 9] ∧
      storeA.readBool (flipByteBit (storeA.write 100000 [7, 9] stWit).2
        (storeA.flash.flash_address + 2) 0) = none :=
  ⟨by decide,
    c4_bit_flip_detected storeA (storeA.write 100000 [7, 9] stWit).2
      [7, 9] 2 0 (by decide) (by decide) (by decide) (by decide)
      (by decide)⟩

/-! Identity isolation (claim C9) -/

/-- Reduction modulo 2^16 distributes over XOR. -/
theorem xor_mod_two_pow_16 (a b : Nat) :
    (a ^^^ b) % 65536 = a % 65536 ^^^ b % 65536 := by
  have h16 : (65536 : Nat) = 2 ^ 16 := by norm_num
  rw [h16]
  apply Nat.eq_of_testBit_eq
  intro i
  simp only [Nat.testBit_mod_two_pow, Nat.testBit_xor]
  by_cases hi : i < 16
  · simp [hi]
  · simp [hi]

/-- `hash_combine` is injective in its second argument modulo 2^16: the
mixing constant depends only on the first argument, so two different
values give two different combined hashes. -/
theorem hash_combine_right_ne (h a b : Nat) (hab : a % 65536 ≠ b % 65536) :
    hash_combine h a ≠ hash_combine h b := by
  intro he
  unfold hash_combine at he
  rw [xor_mod_two_pow_16, xor_mod_two_pow_16] at he
  have h2 : (a + 40503 + h * 64 + h / 4) % 65536 =
      (b + 40503 + h * 64 + h / 4) % 65536 := Nat.xor_right_injective he
  omega

/-- Recovering the bytes written to flash from a successful region read. -/
theorem mem_of_read_some (fc : FlashClass) (ptr size : Nat) (st : FlashMem)
    (l : List Nat) (h : fc.read ptr size st = some l) :
    ∀ i : Nat, i < size → st.mem (ptr + i) = l.getD i 0 := by
  intro i hi
  unfold FlashClass.read at h
  split at h
  case isFalse => exact Option.noConfusion h
  case isTrue =>
    have hmap := Option.some_inj.mp h
    rw [← hmap]
    exact (getD_map_range (fun t => st.mem (ptr + t)) size i hi).symm

/-- C9 (amended): instances with the same logical name but different
`sizeof(T)` (as 16-bit values) always get different identity tags, and
whenever two instances over the same raw bytes have different tags, a read
through store B after only store A has written reports failure.  (For
instances with different logical names the 16-bit name hash is not
injective — see the counterexample — so distinct tags are not guaranteed
in that case.) -/
theorem c9_identity_isolation :
    (∀ (name : List Nat) (s1 s2 : Nat), s1 < 65536 → s2 < 65536 →
      s1 ≠ s2 → hash_variable name s1 ≠ hash_variable name s2) ∧
    (∀ (A B : FlashStorageClass) (phys : Nat) (v : List Nat)
        (st0 : FlashMem),
      B.flash.flash_address = A.flash.flash_address →
      A.variable_hash < 65536 →
      A.variable_hash ≠ B.variable_hash →
      A.flash.flash_size = A.sizeofT + 4 →
      B.flash.flash_size = B.sizeofT + 4 →
      v.length = A.sizeofT →
      (A.write phys v st0).1 = true →
      B.readBool (A.write phys v st0).2 = none) := by
  constructor
  · intro name s1 s2 h1 h2 hne
    unfold hash_variable
    exact hash_combine_right_ne _ _ _ (by omega)
  · intro A B phys v st0 hBA hhA hne hszA hszB hlen h1
    have hreadA := fsc_write_true_read A phys v st0 hszA hlen h1
    have hmem := mem_of_read_some A.flash A.flash.flash_address
      A.flash.flash_size (A.write phys v st0).2 (A.pkgOf v) hreadA
    have h0b : (A.write phys v st0).2.mem (B.flash.flash_address + 0)
        = A.variable_hash % 256 := by
      rw [hBA, hmem 0 (by omega), pkgOf_cons]
      rfl
    have h1b : (A.write phys v st0).2.mem (B.flash.flash_address + 1)
        = A.variable_hash / 256 % 256 := by
      rw [hBA, hmem 1 (by omega), pkgOf_cons]
      rfl
    by_cases hbdB : B.flash.isWithinBounds B.flash.flash_address
        B.flash.flash_size = true
    · rw [readBool_mem B _ hbdB hszB]
      have hcond : (A.write phys v st0).2.mem (B.flash.flash_address + 0) +
          256 * (A.write phys v st0).2.mem (B.flash.flash_address + 1)
          ≠ B.variable_hash := by
        rw [h0b, h1b]
        omega
      rw [if_pos hcond]
    · unfold FlashStorageClass.readBool FlashClass.read
      rw [if_neg hbdB]

/-- Witness for C9: stores `storeA` and `storeC` share the name "a" but
have payload sizes 2 and 3, so their tags differ, and after `storeA`
writes, a read through `storeC` fails. -/
theorem c9_identity_isolation_witness :
    hash_variable [97] 2 ≠ hash_variable [97] 3 ∧
      (storeA.write 100000 [7, 9] stWit).1 = true ∧
      storeC.readBool (storeA.write 100000 [7, 9] stWit).2 = none :=
  ⟨c9_identity_isolation.1 [97] 2 3 (by decide) (by decide) (by decide),
    by decide,
    c9_identity_isolation.2 storeA storeC 100000 [7, 9] stWit (by decide)
      (by decide) (by decide) (by decide) (by decide) (by decide)
      (by decide)⟩

/-- Counterexample to C9 as stated: the distinct names "a" and "alt" have
the same 16-bit name hash, hence the same identity tag for equal payload
sizes, and after `storeA` (name "a") writes a record, `storeB` (name
"alt") accepts it: the read through store B succeeds instead of returning
false. -/
theorem c9_counterexample :
    ([97] : List Nat) ≠ [97, 108, 116] ∧
      hash_variable [97] 2 = hash_variable [97, 108, 116] 2 ∧
      (storeA.write 100000 [7, 9] stWit).1 = true ∧
      storeB.readBool (storeA.write 100000 [7, 9] stWit).2
        = some [7, 9] :=
  ⟨by decide, by decide, by decide, by decide⟩

end SafeFlash
